import Mathlib

/-!
Shallow embedding of `src/perf_test_runner.py` (TendrilTree performance
harness).

Modelling conventions:
* Python strings are `String` or `List Char` (operations are defined on
  `List Char`, with `String` wrappers matching the Python function
  signatures).  The regex class `\w` is modelled by ASCII
  alphanumeric-or-underscore characters; every input appearing in the
  claims is ASCII, so this restriction is invisible to them.
* A Python function that can raise returns an `Option` (`none` = an
  exception escaped).
* `subprocess` calls and the clock are oracles: their observable results
  are passed in as explicit parameters (`Option String`, `none` = the
  call raised / the tool is unavailable).
* The file system is a single file state `Option String` (`none` = the
  path does not exist, `some c` = the file exists with contents `c`).
* `float(s)` is modelled on the digit-and-dot strings the capture group
  can produce: it succeeds exactly when `s` has at least one digit and at
  most one dot, and we keep the decimal value exactly as a rational
  (Python rounds it to the nearest IEEE double; no claim distinguishes a
  decimal from its double rounding).
-/

set_option maxRecDepth 16384

/-- ASCII apostrophe, written by code point. -/
def sqc : Char := Char.ofNat 39

/-- Model of the regex class `\w` (ASCII fragment): alphanumeric or underscore. -/
def isPyWordChar (c : Char) : Bool := c.isAlphanum || c == '_'

/-- The regex class `[0-9.]`: an ASCII digit or a dot. -/
def isNumChar (c : Char) : Bool := c.isDigit || c == '.'

/-- Match a literal list of characters at the head of the input and return
the rest, as the regex does for its fixed text fragments. -/
def litM : List Char → List Char → Option (List Char)
  | [], cs => some cs
  | _ :: _, [] => none
  | l :: ls, c :: cs => if c = l then litM ls cs else none

/-- Match `\w+` greedily: the maximal nonempty run of word characters.
In the harness regex every `\w+` is followed by a required character that
is not a word character, so the greedy run is the only viable parse and
backtracking never changes the outcome. -/
def wordM (cs : List Char) : Option (List Char × List Char) :=
  let w := cs.takeWhile isPyWordChar
  if w.isEmpty then none else some (w, cs.dropWhile isPyWordChar)

/-- Match `[0-9.]+` greedily: the maximal nonempty run of digits and dots.
The regex requires a comma right after, and a comma is not in the class,
so again the greedy run is the only viable parse. -/
def numM (cs : List Char) : Option (List Char × List Char) :=
  let w := cs.takeWhile isNumChar
  if w.isEmpty then none else some (w, cs.dropWhile isNumChar)

/-- One measurement-report match: the three capture groups of the pattern
`Test Case '-\[\w+\.(\w+) (\w+)\]' measured \[Time, seconds\] average: ([0-9.]+),`. -/
structure PerfMatch where
  classname : List Char
  testname : List Char
  average : List Char
deriving DecidableEq

/-- The literal fragment `Test Case '-[` of the pattern. -/
def patLit1 : List Char := "Test Case ".toList ++ [sqc, '-', '[']

/-- The literal fragment `]' measured [Time, seconds] average: ` of the pattern. -/
def patLit2 : List Char :=
  [']', sqc] ++ " measured [Time, seconds] average: ".toList

/-- Attempt the whole pattern at the start of `cs`; on success return the
three capture groups and the input remaining after the final comma.  Each
greedy piece is followed by a required character outside its class, so
this deterministic reading coincides with the backtracking regex. -/
def matchAt (cs : List Char) : Option (PerfMatch × List Char) :=
  (litM patLit1 cs).bind fun cs1 =>
  (wordM cs1).bind fun mo =>
  (litM ['.'] mo.2).bind fun cs2 =>
  (wordM cs2).bind fun g1 =>
  (litM [' '] g1.2).bind fun cs3 =>
  (wordM cs3).bind fun g2 =>
  (litM patLit2 g2.2).bind fun cs4 =>
  (numM cs4).bind fun g3 =>
  (litM [','] g3.2).bind fun rest =>
  some (⟨g1.1, g2.1, g3.1⟩, rest)

theorem litM_length {l cs rest : List Char} (h : litM l cs = some rest) :
    cs.length = l.length + rest.length := by
  induction l generalizing cs with
  | nil => simp [litM] at h; simp [h]
  | cons a l ih =>
    cases cs with
    | nil => simp [litM] at h
    | cons c cs =>
      simp only [litM] at h
      split at h
      · have := ih h
        simp [List.length_cons, this]; omega
      · exact absurd h (by simp)

theorem dropWhile_length_le (p : Char → Bool) (cs : List Char) :
    (cs.dropWhile p).length ≤ cs.length := by
  induction cs with
  | nil => simp
  | cons c cs ih =>
    by_cases h : p c
    · simp [List.dropWhile, h]; omega
    · simp [List.dropWhile, h]

theorem wordM_length {cs w rest : List Char} (h : wordM cs = some (w, rest)) :
    rest.length ≤ cs.length := by
  simp only [wordM] at h
  split at h
  · exact absurd h (by simp)
  · obtain ⟨h1, h2⟩ := Prod.mk.injEq .. ▸ Option.some.injEq .. ▸ h
    subst h2; exact dropWhile_length_le _ _

theorem numM_length {cs w rest : List Char} (h : numM cs = some (w, rest)) :
    rest.length ≤ cs.length := by
  simp only [numM] at h
  split at h
  · exact absurd h (by simp)
  · obtain ⟨h1, h2⟩ := Prod.mk.injEq .. ▸ Option.some.injEq .. ▸ h
    subst h2; exact dropWhile_length_le _ _

theorem matchAt_length {cs : List Char} {m : PerfMatch} {rest : List Char}
    (h : matchAt cs = some (m, rest)) : rest.length < cs.length := by
  simp only [matchAt, Option.bind_eq_some] at h
  obtain ⟨cs1, h1, mo, h2, cs2, h3, g1, h4, cs3, h5, g2, h6, cs4, h7, g3, h8, rest, h9, h10⟩ := h
  obtain ⟨hm, hr⟩ := Prod.mk.injEq .. ▸ Option.some.injEq .. ▸ h10
  subst hr
  have e1 := litM_length h1
  have e2 : mo.2.length ≤ cs1.length := by
    obtain ⟨w2, r2⟩ := mo; exact wordM_length h2
  have e3 := litM_length h3
  have e4 : g1.2.length ≤ cs2.length := by
    obtain ⟨w4, r4⟩ := g1; exact wordM_length h4
  have e5 := litM_length h5
  have e6 : g2.2.length ≤ cs3.length := by
    obtain ⟨w6, r6⟩ := g2; exact wordM_length h6
  have e7 := litM_length h7
  have e8 : g3.2.length ≤ cs4.length := by
    obtain ⟨w8, r8⟩ := g3; exact numM_length h8
  have e9 := litM_length h9
  have hp1 : patLit1.length = 13 := by decide
  simp only [hp1] at e1
  omega

/-- `re.finditer` over the fixed pattern, with explicit fuel to make the
recursion structural: scan left to right, emit each leftmost
non-overlapping match, resume after the matched text.  Every step strictly
shortens the input (`matchAt_length`), so fuel equal to the input length
never runs out; `finditerAux_congr` records this fuel irrelevance. -/
def finditerAux : ℕ → List Char → List PerfMatch
  | 0, _ => []
  | _ + 1, [] => []
  | fuel + 1, c :: cs =>
    match matchAt (c :: cs) with
    | some (m, rest) => m :: finditerAux fuel rest
    | none => finditerAux fuel cs

/-- `re.finditer(regex, output)` as the list of matches in text order. -/
def finditer (cs : List Char) : List PerfMatch := finditerAux cs.length cs

theorem finditerAux_congr : ∀ (fuel1 fuel2 : ℕ) (cs : List Char),
    cs.length ≤ fuel1 → cs.length ≤ fuel2 →
    finditerAux fuel1 cs = finditerAux fuel2 cs := by
  intro fuel1
  induction fuel1 with
  | zero =>
    intro fuel2 cs h1 _
    cases cs with
    | nil => cases fuel2 <;> rfl
    | cons c cs => simp at h1
  | succ fuel1 ih =>
    intro fuel2 cs h1 h2
    cases cs with
    | nil => cases fuel2 <;> rfl
    | cons c cs =>
      cases fuel2 with
      | zero => simp at h2
      | succ fuel2 =>
        simp only [finditerAux]
        cases hm : matchAt (c :: cs) with
        | none =>
          simp only [List.length_cons] at h1 h2
          exact ih fuel2 cs (by omega) (by omega)
        | some p =>
          obtain ⟨m, rest⟩ := p
          have hlt := matchAt_length hm
          simp only [List.length_cons] at h1 h2 hlt
          have := ih fuel2 rest (by omega) (by omega)
          simp [this]

/-- The defining recurrence of `finditer` on a successful match: emit the
match and resume after it. -/
theorem finditer_cons_match {c : Char} {cs : List Char} {m : PerfMatch}
    {rest : List Char} (h : matchAt (c :: cs) = some (m, rest)) :
    finditer (c :: cs) = m :: finditer rest := by
  have hlt := matchAt_length h
  simp only [finditer, List.length_cons, finditerAux, h]
  rw [finditerAux_congr cs.length rest.length rest]
  · simp only [List.length_cons] at hlt; omega
  · exact le_rfl

/-- The defining recurrence of `finditer` on a failed attempt: advance one
character. -/
theorem finditer_cons_fail {c : Char} {cs : List Char}
    (h : matchAt (c :: cs) = none) : finditer (c :: cs) = finditer cs := by
  simp only [finditer, List.length_cons, finditerAux, h]

/-- Natural value of a digit string, most significant digit first. -/
def digitsVal (cs : List Char) : ℕ :=
  cs.foldl (fun n c => 10 * n + (c.toNat - 48)) 0

/-- Exact decimal value of a digits-and-dot string: integer part plus
fractional part scaled by its length. -/
def decimalVal (cs : List Char) : ℚ :=
  let ip := cs.takeWhile (fun c => !(c == '.'))
  let fp := (cs.dropWhile (fun c => !(c == '.'))).drop 1
  (digitsVal ip : ℚ) + (digitsVal fp : ℚ) / (10 : ℚ) ^ fp.length

/-- Python `float(s)` on the strings the capture group `[0-9.]+` can
produce: succeeds exactly when `s` is made of digits and dots with at
least one digit and at most one dot, and yields the exact decimal value
(`none` models the `ValueError` raised otherwise, e.g. on `"."` or
`"1.2.3"`). -/
def pyFloat (cs : List Char) : Option ℚ :=
  if cs.all isNumChar ∧ cs.count '.' ≤ 1 ∧ cs.any Char.isDigit then
    some (decimalVal cs)
  else none

/-- Python dict assignment `d[k] = v` on an insertion-ordered association
list: an existing key keeps its position and gets the new value, a new key
is appended at the end. -/
def dictInsert {α : Type} (d : List (String × α)) (k : String) (v : α) :
    List (String × α) :=
  if d.any (fun p => p.1 = k) then
    d.map (fun p => if p.1 = k then (k, v) else p)
  else d ++ [(k, v)]

/-- Python dict lookup `d[k]` / `d.get(k)` on an association list. -/
def dictLookup {α : Type} (k : String) : List (String × α) → Option α
  | [] => none
  | p :: rest => if k = p.1 then some p.2 else dictLookup k rest

/-- The key `f"\x7bclassname\x7d.\x7btestname\x7d"` composed from the two
capture groups. -/
def matchKey (m : PerfMatch) : String :=
  String.mk (m.classname ++ '.' :: m.testname)

/-- The loop body of `parse_results`: process the matches in text order,
`results[full_testname] = float(average)`; `none` models the iteration
aborted by a `ValueError` from `float`. -/
def parseMatches : List PerfMatch → List (String × ℚ) →
    Option (List (String × ℚ))
  | [], acc => some acc
  | m :: ms, acc =>
    match pyFloat m.average with
    | none => none
    | some v => parseMatches ms (dictInsert acc (matchKey m) v)

/-- `parse_results(output)`: run the fixed pattern over the output and
build the measurement dict; `none` models an escaping `ValueError`. -/
def parse_results (output : String) : Option (List (String × ℚ)) :=
  parseMatches (finditer output.toList) []

/-- Python `str.strip()` whitespace set (ASCII fragment). -/
def isPySpace (c : Char) : Bool :=
  c == ' ' || c == '\t' || c == '\n' || c == '\r' ||
    c == Char.ofNat 11 || c == Char.ofNat 12

/-- `s.strip()`: drop leading and trailing whitespace. -/
def pyStrip (cs : List Char) : List Char :=
  ((cs.dropWhile isPySpace).reverse.dropWhile isPySpace).reverse

/-- `get_git_sha()`.  The observable outcome of
`subprocess.check_output(["git", "rev-parse", "HEAD"])` is the parameter:
`some out` when the command produced output `out` (already decoded), and
`none` when it raised for any reason; the broad `except Exception`
converts the latter to the sentinel. -/
def get_git_sha (cmdResult : Option String) : String :=
  match cmdResult with
  | some out => String.mk (pyStrip out.toList)
  | none => "unknown"

/-- Does a CSV field need quoting under the default `QUOTE_MINIMAL`
dialect (delimiter, quote char or line terminator characters present)? -/
def csvNeedsQuote (s : String) : Bool :=
  s.toList.any (fun c => c == ',' || c == '"' || c == '\r' || c == '\n')

/-- Serialize one CSV field, quoting and doubling quotes when needed. -/
def csvField (s : String) : String :=
  if csvNeedsQuote s then
    "\"" ++ String.mk (s.toList.foldr
      (fun c acc => if c == '"' then '"' :: '"' :: acc else c :: acc) [])
      ++ "\""
  else s

/-- Serialize one CSV record with the default `\r\n` terminator (the file
is opened with `newline=''`, so no further translation happens). -/
def csvLine (fields : List String) : String :=
  String.intercalate "," (fields.map csvField) ++ "\r\n"

/-- The data fields `DictWriter` emits for `row` under `headers`: fields
in header order, a header key absent from the row giving the default
`restval = None`, which the underlying writer renders as an empty field. -/
def rowFields (row : List (String × String)) (headers : List String) :
    List String :=
  headers.map (fun h => (dictLookup h row).getD "")

/-- `write_csv_row(csvfile, row, headers)` as a file-state transformer.
Input state: `none` if the path does not exist, `some c` for contents `c`.
Result: `(raised, newContents)` where `raised` models the `ValueError`
that `DictWriter.writerow` raises (default `extrasaction="raise"`) when
`row` holds a key outside `headers`; opening in append mode creates the
file, and `writeheader()` runs (only on a previously missing file) before
`writerow` performs its field check, so on a raise a fresh file is left
holding just the header line. -/
def write_csv_row (fileState : Option String) (row : List (String × String))
    (headers : List String) : Bool × String :=
  let afterHeader :=
    match fileState with
    | some c => c
    | none => csvLine headers
  if row.all (fun p => headers.contains p.1) then
    (false, afterHeader ++ csvLine (rowFields row headers))
  else
    (true, afterHeader)

/-- A value stored in the report row: the timestamp and revision are
strings, measurements are numbers. -/
inductive PyVal
  | str : String → PyVal
  | num : ℚ → PyVal
deriving DecidableEq

/-- Rendering of a row value for the CSV writer.  Python renders a float
through `str`; the exact digits of that rendering are irrelevant to every
claim, so any fixed rendering of the rational serves. -/
def pyValRepr : PyVal → String
  | .str s => s
  | .num q => toString q

/-- Python `d1.update(d2)` on insertion-ordered association lists. -/
def pyUpdate (d : List (String × PyVal)) (upd : List (String × PyVal)) :
    List (String × PyVal) :=
  upd.foldl (fun acc p => dictInsert acc p.1 p.2) d

/-- The report row assembled by `main`:
`row = {"date": now, "git_sha": git_sha}; row.update(results)`. -/
def mainRow (results : List (String × ℚ)) (now git_sha : String) :
    List (String × PyVal) :=
  pyUpdate [("date", .str now), ("git_sha", .str git_sha)]
    (results.map (fun p => (p.1, .num p.2)))

/-- The header list assembled by `main`:
`headers = ["date", "git_sha"] + list(results.keys())`. -/
def mainHeaders (results : List (String × ℚ)) : List String :=
  ["date", "git_sha"] ++ results.map Prod.fst

/-- The keys of a measurement dict in first-seen order: fold over the
match keys, appending a key the first time it appears. -/
def firstSeen (ks : List String) : List String :=
  ks.foldl (fun a k => if k ∈ a then a else a ++ [k]) []

/-- The numeric capture of the last match carrying key `k`, if any. -/
def lastCapture (k : String) (ms : List PerfMatch) : Option (List Char) :=
  (ms.filterMap fun m => if matchKey m = k then some m.average else none).getLast?

/-- `main()` as a transformer of the `perf_results.csv` state.  Oracles:
`testOut` is what `run_tests()` returns (`none` = the launch raised),
`now` the timestamp string, `gitOut` the git oracle for `get_git_sha`.
Result: `(raised, file)`.  No step is wrapped in a handler, so a raise in
`run_tests` or `parse_results` leaves the file untouched. -/
def pyMain (testOut : Option String) (now : String) (gitOut : Option String)
    (file : Option String) : Bool × Option String :=
  match testOut with
  | none => (true, file)
  | some out =>
    match parse_results out with
    | none => (true, file)
    | some results =>
      let row := mainRow results now (get_git_sha gitOut)
      let headers := mainHeaders results
      let res := write_csv_row file
        (row.map (fun p => (p.1, pyValRepr p.2))) headers
      (res.1, some res.2)

/-- The string holding one ASCII apostrophe, for building test-report
lines without quote characters in source literals. -/
def sqS : String := String.mk [sqc]

/-- The measurement line exactly as the specification writes it in
end-to-end scenario A: no method word inside the brackets and no closing
quote after them. -/
def specLineA : String :=
  "Test Case " ++ sqS ++
    "-[TendrilTreeTests.testInsert] measured [Time, seconds] average: 0.003,"

/-- A measurement line in the shape the fixed pattern actually accepts,
whose captured groups compose the key of scenario A. -/
def okLineA : String :=
  "Test Case " ++ sqS ++ "-[X.TendrilTreeTests testInsert]" ++ sqS ++
    " measured [Time, seconds] average: 0.003,"

/-- A pattern-matching line whose numeric capture `1.2.3` is not a valid
float literal. -/
def badNumLine : String :=
  "Test Case " ++ sqS ++ "-[TendrilTreeTests.Measurements testBad]" ++ sqS ++
    " measured [Time, seconds] average: 1.2.3,"

/-- Two matching lines with the same composed key and different averages,
the later one reporting 0.007. -/
def twoLines : String :=
  okLineA ++ "\n" ++
    "Test Case " ++ sqS ++ "-[X.TendrilTreeTests testInsert]" ++ sqS ++
    " measured [Time, seconds] average: 0.007,"

theorem takeWhile_all (p : Char → Bool) (cs : List Char) :
    (cs.takeWhile p).all p = true := by
  induction cs with
  | nil => rfl
  | cons c cs ih =>
    by_cases h : p c
    · simp [List.takeWhile, h, ih]
    · simp [List.takeWhile, h]

theorem dropWhile_head_not (p : Char → Bool) (cs : List Char) :
    ∀ c, (cs.dropWhile p).head? = some c → p c = false := by
  induction cs with
  | nil => intro c h; simp at h
  | cons a cs ih =>
    intro c h
    by_cases ha : p a
    · exact ih c (by simpa [List.dropWhile, ha] using h)
    · simp [List.dropWhile, ha] at h
      subst h
      simpa using ha

theorem getLast?_dropWhile (p : Char → Bool) (cs : List Char) :
    ∀ c, (cs.dropWhile p).getLast? = some c → cs.getLast? = some c := by
  induction cs with
  | nil => intro c h; simp at h
  | cons a cs ih =>
    intro c h
    by_cases ha : p a
    · have h' := ih c (by simpa [List.dropWhile, ha] using h)
      cases cs with
      | nil => simp at h'
      | cons b bs => rw [List.getLast?_cons_cons]; exact h'
    · simpa [List.dropWhile, ha] using h

theorem dictLookup_cons {α : Type} (k : String) (p : String × α)
    (d : List (String × α)) :
    dictLookup k (p :: d) = if k = p.1 then some p.2 else dictLookup k d := rfl

theorem dictLookup_map_ne {α : Type} (d : List (String × α)) (k k' : String)
    (v : α) (hne : k ≠ k') :
    dictLookup k (d.map (fun p => if p.1 = k' then (k', v) else p)) =
      dictLookup k d := by
  induction d with
  | nil => rfl
  | cons a d ih =>
    rw [List.map_cons, dictLookup_cons, dictLookup_cons, ih]
    by_cases ha : a.1 = k'
    · rw [if_pos ha]
      have h1 : ¬ (k = (k', v).1) := hne
      rw [if_neg h1, if_neg (ha ▸ h1)]
    · rw [if_neg ha]

theorem dictLookup_map_eq {α : Type} (d : List (String × α)) (k : String)
    (v : α) (hmem : d.any (fun p => p.1 = k) = true) :
    dictLookup k (d.map (fun p => if p.1 = k then (k, v) else p)) = some v := by
  induction d with
  | nil => simp at hmem
  | cons a d ih =>
    rw [List.map_cons, dictLookup_cons]
    by_cases ha : a.1 = k
    · rw [if_pos ha]
      have h1 : k = ((k, v) : String × α).1 := rfl
      rw [if_pos h1]
    · have hmem' : d.any (fun p => p.1 = k) = true := by
        simp only [List.any_cons, Bool.or_eq_true] at hmem
        rcases hmem with h | h
        · exact absurd (by simpa using h) ha
        · exact h
      rw [if_neg ha, if_neg (fun h : k = a.1 => ha h.symm), ih hmem']

theorem dictLookup_append_not_mem {α : Type} (d : List (String × α))
    (k k' : String) (v : α) (hnot : d.any (fun p => p.1 = k') = false) :
    dictLookup k (d ++ [(k', v)]) =
      if k = k' then some v else dictLookup k d := by
  induction d with
  | nil => simp [dictLookup]
  | cons a d ih =>
    simp only [List.any_cons, Bool.or_eq_false_iff] at hnot
    obtain ⟨ha, hd⟩ := hnot
    have ha' : ¬ a.1 = k' := by simpa using ha
    rw [List.cons_append, dictLookup_cons, dictLookup_cons, ih hd]
    by_cases hk : k = a.1
    · have hkk : ¬ (k = k') := fun h => ha' (hk ▸ h)
      rw [if_pos hk, if_neg hkk, if_pos hk]
    · rw [if_neg hk, if_neg hk]

/-- The dict-assignment lookup law: after `d[k2] = v`, looking up `k1`
yields `v` when `k1 = k2` and the old binding otherwise. -/
theorem dictLookup_dictInsert {α : Type} (d : List (String × α))
    (k1 k2 : String) (v : α) :
    dictLookup k1 (dictInsert d k2 v) =
      if k1 = k2 then some v else dictLookup k1 d := by
  unfold dictInsert
  by_cases hmem : d.any (fun p => p.1 = k2) = true
  · rw [if_pos hmem]
    by_cases hk : k1 = k2
    · subst hk; rw [if_pos rfl]; exact dictLookup_map_eq d k1 v hmem
    · rw [if_neg hk]; exact dictLookup_map_ne d k1 k2 v hk
  · rw [if_neg hmem]
    exact dictLookup_append_not_mem d k1 k2 v (Bool.eq_false_iff.mpr hmem)

theorem dictAny_iff {α : Type} (d : List (String × α)) (k : String) :
    (d.any (fun p => p.1 = k) = true) ↔ k ∈ d.map Prod.fst := by
  induction d with
  | nil => simp
  | cons a d ih =>
    simp only [List.any_cons, Bool.or_eq_true, List.map_cons, List.mem_cons, ← ih]
    constructor
    · rintro (h | h)
      · have ha : a.1 = k := by simpa using h
        exact Or.inl ha.symm
      · exact Or.inr h
    · rintro (h | h)
      · have ha : a.1 = k := h.symm
        exact Or.inl (by simpa using ha)
      · exact Or.inr h

/-- Dict assignment on keys: an existing key keeps its position, a new
key is appended at the end. -/
theorem dictInsert_keys {α : Type} (d : List (String × α)) (k : String)
    (v : α) :
    (dictInsert d k v).map Prod.fst =
      if k ∈ d.map Prod.fst then d.map Prod.fst else d.map Prod.fst ++ [k] := by
  unfold dictInsert
  by_cases hmem : d.any (fun p => p.1 = k) = true
  · rw [if_pos hmem, if_pos ((dictAny_iff d k).mp hmem), List.map_map]
    apply List.map_congr_left
    intro p _
    by_cases hp : p.1 = k
    · simp [hp]
    · simp [hp]
  · rw [if_neg hmem, if_neg (fun h => hmem ((dictAny_iff d k).mpr h))]
    simp

theorem parseMatches_isSome (ms : List PerfMatch) :
    ∀ acc, (parseMatches ms acc).isSome = true ↔
      ∀ m ∈ ms, (pyFloat m.average).isSome = true := by
  induction ms with
  | nil => intro acc; simp [parseMatches]
  | cons m ms ih =>
    intro acc
    cases hf : pyFloat m.average with
    | none =>
      simp only [parseMatches, hf, Option.isSome_none]
      constructor
      · intro h; cases h
      · intro h
        have := h m (List.mem_cons_self m ms)
        rw [hf] at this
        cases this
    | some v =>
      simp only [parseMatches, hf]
      rw [ih (dictInsert acc (matchKey m) v)]
      constructor
      · intro h m' hm'
        rcases List.mem_cons.mp hm' with he | hm'
        · rw [he, hf]; rfl
        · exact h m' hm'
      · intro h m' hm'
        exact h m' (List.mem_cons_of_mem m hm')

theorem parseMatches_lookup_none (k : String) : ∀ (ms : List PerfMatch)
    (acc d : List (String × ℚ)), parseMatches ms acc = some d →
    lastCapture k ms = none → dictLookup k d = dictLookup k acc := by
  intro ms
  induction ms with
  | nil =>
    intro acc d h _
    simp only [parseMatches, Option.some.injEq] at h
    rw [h]
  | cons m ms ih =>
    intro acc d h hl
    cases hf : pyFloat m.average with
    | none => rw [parseMatches, hf] at h; cases h
    | some v =>
      rw [parseMatches, hf] at h
      by_cases hmk : matchKey m = k
      · exfalso
        have hstep : List.filterMap
            (fun m => if matchKey m = k then some m.average else none) (m :: ms)
            = m.average :: List.filterMap
              (fun m => if matchKey m = k then some m.average else none) ms :=
          List.filterMap_cons_some (by simp [hmk])
        unfold lastCapture at hl
        rw [hstep] at hl
        exact List.cons_ne_nil _ _ (List.getLast?_eq_none_iff.mp hl)
      · have hstep : List.filterMap
            (fun m => if matchKey m = k then some m.average else none) (m :: ms)
            = List.filterMap
              (fun m => if matchKey m = k then some m.average else none) ms :=
          List.filterMap_cons_none (by simp [hmk])
        have hl' : lastCapture k ms = none := by
          unfold lastCapture at hl ⊢
          rwa [hstep] at hl
        rw [ih _ d h hl', dictLookup_dictInsert,
          if_neg (fun he : k = matchKey m => hmk he.symm)]

theorem parseMatches_lookup_last (k : String) : ∀ (ms : List PerfMatch)
    (acc d : List (String × ℚ)) (a : List Char),
    parseMatches ms acc = some d → lastCapture k ms = some a →
    dictLookup k d = pyFloat a := by
  intro ms
  induction ms with
  | nil => intro acc d a _ hl; simp [lastCapture] at hl
  | cons m ms ih =>
    intro acc d a h hl
    cases hf : pyFloat m.average with
    | none => rw [parseMatches, hf] at h; cases h
    | some v =>
      rw [parseMatches, hf] at h
      by_cases hmk : matchKey m = k
      · have hstep : List.filterMap
            (fun m => if matchKey m = k then some m.average else none) (m :: ms)
            = m.average :: List.filterMap
              (fun m => if matchKey m = k then some m.average else none) ms :=
          List.filterMap_cons_some (by simp [hmk])
        cases hL : lastCapture k ms with
        | some a' =>
          have ha : a = a' := by
            unfold lastCapture at hl
            rw [hstep] at hl
            rcases hcons : (ms.filterMap fun m =>
                if matchKey m = k then some m.average else none) with _ | ⟨b, bs⟩
            · exfalso
              unfold lastCapture at hL
              rw [hcons] at hL; simp at hL
            · have hL' : (b :: bs).getLast? = some a' := by
                have hc := hL
                unfold lastCapture at hc
                rwa [hcons] at hc
              rw [hcons, List.getLast?_cons_cons] at hl
              exact Option.some_inj.mp (hl.symm.trans hL')
          rw [ha]
          exact ih _ d a' h hL
        | none =>
          have hnil : (ms.filterMap fun m =>
              if matchKey m = k then some m.average else none) = [] := by
            have hc := hL
            unfold lastCapture at hc
            exact List.getLast?_eq_none_iff.mp hc
          have ha : a = m.average := by
            unfold lastCapture at hl
            rw [hstep, hnil] at hl
            simpa using hl.symm
          rw [parseMatches_lookup_none k ms _ d h hL, dictLookup_dictInsert,
            if_pos hmk.symm, ha, hf]
      · have hstep : List.filterMap
            (fun m => if matchKey m = k then some m.average else none) (m :: ms)
            = List.filterMap
              (fun m => if matchKey m = k then some m.average else none) ms :=
          List.filterMap_cons_none (by simp [hmk])
        have hl' : lastCapture k ms = some a := by
          unfold lastCapture at hl ⊢
          rwa [hstep] at hl
        exact ih _ d a h hl'

theorem parseMatches_keys : ∀ (ms : List PerfMatch)
    (acc d : List (String × ℚ)), parseMatches ms acc = some d →
    d.map Prod.fst = (ms.map matchKey).foldl
      (fun a k => if k ∈ a then a else a ++ [k]) (acc.map Prod.fst) := by
  intro ms
  induction ms with
  | nil =>
    intro acc d h
    simp only [parseMatches, Option.some.injEq] at h
    rw [← h]; rfl
  | cons m ms ih =>
    intro acc d h
    cases hf : pyFloat m.average with
    | none => rw [parseMatches, hf] at h; cases h
    | some v =>
      rw [parseMatches, hf] at h
      rw [List.map_cons, List.foldl_cons, ← dictInsert_keys acc (matchKey m) v]
      exact ih _ d h

theorem foldl_firstSeen_mem : ∀ (ks init : List String) (k : String),
    k ∈ ks.foldl (fun a k => if k ∈ a then a else a ++ [k]) init →
    k ∈ init ∨ k ∈ ks := by
  intro ks
  induction ks with
  | nil => intro init k h; exact Or.inl h
  | cons k0 ks ih =>
    intro init k h
    simp only [List.foldl_cons] at h
    rcases ih _ k h with h' | h'
    · by_cases hm : k0 ∈ init
      · rw [if_pos hm] at h'
        exact Or.inl h'
      · rw [if_neg hm] at h'
        rcases List.mem_append.mp h' with h'' | h''
        · exact Or.inl h''
        · have he : k = k0 := List.mem_singleton.mp h''
          exact Or.inr (he ▸ List.mem_cons_self k0 ks)
    · exact Or.inr (List.mem_cons_of_mem k0 h')

/-- The well-formedness every emitted match enjoys: nonempty word-character
capture groups and a digits-and-dots numeric capture. -/
def goodMatch (m : PerfMatch) : Prop :=
  m.classname ≠ [] ∧ m.classname.all isPyWordChar = true ∧
  m.testname ≠ [] ∧ m.testname.all isPyWordChar = true ∧
  m.average ≠ [] ∧ m.average.all isNumChar = true

theorem wordM_shape {cs w rest : List Char} (h : wordM cs = some (w, rest)) :
    w ≠ [] ∧ w.all isPyWordChar = true := by
  simp only [wordM] at h
  split at h
  · exact absurd h (by simp)
  · rename_i hemp
    obtain ⟨h1, _⟩ := Prod.mk.injEq .. ▸ Option.some.injEq .. ▸ h
    subst h1
    exact ⟨by simpa [List.isEmpty_iff] using hemp, takeWhile_all _ _⟩

theorem numM_shape {cs w rest : List Char} (h : numM cs = some (w, rest)) :
    w ≠ [] ∧ w.all isNumChar = true := by
  simp only [numM] at h
  split at h
  · exact absurd h (by simp)
  · rename_i hemp
    obtain ⟨h1, _⟩ := Prod.mk.injEq .. ▸ Option.some.injEq .. ▸ h
    subst h1
    exact ⟨by simpa [List.isEmpty_iff] using hemp, takeWhile_all _ _⟩

theorem matchAt_shape {cs : List Char} {m : PerfMatch} {rest : List Char}
    (h : matchAt cs = some (m, rest)) : goodMatch m := by
  simp only [matchAt, Option.bind_eq_some] at h
  obtain ⟨cs1, _, mo, _, cs2, _, g1, h4, cs3, _, g2, h6, cs4, _, g3, h8, r9, _, h10⟩ := h
  obtain ⟨hm, _⟩ := Prod.mk.injEq .. ▸ Option.some.injEq .. ▸ h10
  obtain ⟨w1, r1⟩ := g1
  obtain ⟨w2, r2⟩ := g2
  obtain ⟨w3, r3⟩ := g3
  obtain ⟨hw1, ha1⟩ := wordM_shape h4
  obtain ⟨hw2, ha2⟩ := wordM_shape h6
  obtain ⟨hw3, ha3⟩ := numM_shape h8
  rw [← hm]
  exact ⟨hw1, ha1, hw2, ha2, hw3, ha3⟩

theorem finditerAux_shape : ∀ (fuel : ℕ) (cs : List Char),
    ∀ m ∈ finditerAux fuel cs, goodMatch m := by
  intro fuel
  induction fuel with
  | zero => intro cs m hm; simp [finditerAux] at hm
  | succ fuel ih =>
    intro cs m hm
    cases cs with
    | nil => simp [finditerAux] at hm
    | cons c cs =>
      rw [finditerAux] at hm
      cases hmt : matchAt (c :: cs) with
      | none =>
        rw [hmt] at hm
        exact ih cs m hm
      | some p =>
        obtain ⟨m0, rest⟩ := p
        rw [hmt] at hm
        rcases List.mem_cons.mp hm with he | hm'
        · rw [he]; exact matchAt_shape hmt
        · exact ih rest m hm'

/-- Every match `finditer` emits is well-formed. -/
theorem finditer_shape (cs : List Char) : ∀ m ∈ finditer cs, goodMatch m :=
  finditerAux_shape cs.length cs

theorem pyFloat_isSome (cs : List Char) :
    (pyFloat cs).isSome = true ↔
      (cs.all isNumChar = true ∧ cs.count '.' ≤ 1 ∧ cs.any Char.isDigit = true) := by
  unfold pyFloat
  split
  · rename_i hc
    simp only [Option.isSome_some]
    exact ⟨fun _ => hc, fun _ => trivial⟩
  · rename_i hc
    simp only [Option.isSome_none]
    exact ⟨fun h => absurd h (by simp), fun h => absurd h hc⟩

theorem pyUpdate_lookup_not_mem (k : String) : ∀ (upd d : List (String × PyVal)),
    (∀ p ∈ upd, p.1 ≠ k) → dictLookup k (pyUpdate d upd) = dictLookup k d := by
  intro upd
  induction upd with
  | nil => intro d _; rfl
  | cons p upd ih =>
    intro d hne
    unfold pyUpdate at ih ⊢
    rw [List.foldl_cons]
    rw [ih (dictInsert d p.1 p.2) (fun q hq => hne q (List.mem_cons_of_mem p hq))]
    rw [dictLookup_dictInsert]
    exact if_neg (fun he : k = p.1 => hne p (List.mem_cons_self p upd) he.symm)

theorem pyUpdate_lookup_isSome (k : String) : ∀ (upd d : List (String × PyVal)),
    (dictLookup k d).isSome = true →
    (dictLookup k (pyUpdate d upd)).isSome = true := by
  intro upd
  induction upd with
  | nil => intro d h; exact h
  | cons p upd ih =>
    intro d h
    unfold pyUpdate at ih ⊢
    rw [List.foldl_cons]
    apply ih
    rw [dictLookup_dictInsert]
    by_cases he : k = p.1
    · rw [if_pos he]; rfl
    · rw [if_neg he]; exact h

theorem pyStrip_decomp (cs : List Char) :
    ∃ pre post : List Char, pre.all isPySpace = true ∧ post.all isPySpace = true ∧
      cs = pre ++ pyStrip cs ++ post := by
  refine ⟨cs.takeWhile isPySpace,
    ((cs.dropWhile isPySpace).reverse.takeWhile isPySpace).reverse, ?_, ?_, ?_⟩
  · exact takeWhile_all _ _
  · rw [List.all_reverse]; exact takeWhile_all _ _
  · conv_lhs => rw [← List.takeWhile_append_dropWhile (p := isPySpace) (l := cs)]
    rw [List.append_assoc]
    congr 1
    unfold pyStrip
    conv_lhs => rw [← List.reverse_reverse (cs.dropWhile isPySpace)]
    conv_lhs =>
      rw [← List.takeWhile_append_dropWhile (p := isPySpace)
        (l := (cs.dropWhile isPySpace).reverse)]
    rw [List.reverse_append]

theorem pyStrip_head (cs : List Char) :
    ∀ c, (pyStrip cs).head? = some c → isPySpace c = false := by
  intro c h
  unfold pyStrip at h
  rw [List.head?_reverse] at h
  have h2 := getLast?_dropWhile isPySpace (cs.dropWhile isPySpace).reverse c h
  rw [List.getLast?_reverse] at h2
  exact dropWhile_head_not isPySpace cs c h2

theorem pyStrip_last (cs : List Char) :
    ∀ c, (pyStrip cs).getLast? = some c → isPySpace c = false := by
  intro c h
  unfold pyStrip at h
  rw [List.getLast?_reverse] at h
  exact dropWhile_head_not isPySpace _ c h

/-- Evaluation of the extractor on the well-formed scenario-A line. -/
theorem parse_okLineA : parse_results okLineA
    = some [("TendrilTreeTests.testInsert", decimalVal ['0','.','0','0','3'])] := rfl

/-- Evaluation of the extractor on the two-line input: the later value
overwrote the earlier one. -/
theorem parse_twoLines : parse_results twoLines
    = some [("TendrilTreeTests.testInsert", decimalVal ['0','.','0','0','7'])] := rfl

/-- C1, counterexample: on the input text that the specification gives for
scenario A, parse_results returns the empty mapping, not the claimed
singleton mapping.  The written line lacks the method word and the closing
quote that the fixed pattern requires after the brackets. -/
theorem c1_counterexample :
    parse_results specLineA = some [] ∧
    parse_results specLineA ≠
      some [("TendrilTreeTests.testInsert", (3 : ℚ)/1000)] := by
  constructor
  · rfl
  · rw [show parse_results specLineA = some [] from rfl]
    simp

/-- C1, amended: the scenario-A line as written by the specification does
not match the extraction pattern, so parse_results maps it to the empty
mapping; on the corresponding line in the shape the pattern accepts
(method word and closing quote present) parse_results returns exactly the
mapping sending TendrilTreeTests.testInsert to 0.003. -/
theorem c1_amended :
    parse_results specLineA = some [] ∧
    parse_results okLineA =
      some [("TendrilTreeTests.testInsert", (3 : ℚ)/1000)] := by
  refine ⟨rfl, ?_⟩
  have h1 := parse_okLineA
  have h2 : decimalVal ['0','.','0','0','3']
      = ((0 : ℕ) : ℚ) + ((3 : ℕ) : ℚ) / (10 : ℚ) ^ (3 : ℕ) := rfl
  rw [h1, h2]
  norm_num

/-- C2, counterexample: an input with exactly one pattern match whose
numeric capture is 1.2.3 makes the float conversion raise, so
parse_results does not return (modelled by none); the error branch is
reachable. -/
theorem c2_counterexample :
    (finditer badNumLine.toList).length = 1 ∧
    parse_results badNumLine = none := ⟨rfl, rfl⟩

/-- C2, amended: parse_results returns without raising exactly when every
numeric capture of the fixed pattern has at most one dot and at least one
digit; the digit-and-dot character class alone does not guarantee this. -/
theorem c2_amended (output : String) :
    (parse_results output).isSome = true ↔
      ∀ m ∈ finditer output.toList,
        (m.average.count '.' ≤ 1 ∧ m.average.any Char.isDigit = true) := by
  unfold parse_results
  rw [parseMatches_isSome]
  constructor
  · intro h m hm
    have hx := (pyFloat_isSome m.average).mp (h m hm)
    exact ⟨hx.2.1, hx.2.2⟩
  · intro h m hm
    have hg := finditer_shape output.toList m hm
    exact (pyFloat_isSome m.average).mpr ⟨hg.2.2.2.2.2, (h m hm).1, (h m hm).2⟩

/-- C2, witness for the amended claim at a concrete input whose only
numeric capture is the valid decimal 0.003. -/
theorem c2_amended_witness : (parse_results okLineA).isSome = true :=
  (c2_amended okLineA).mpr (by decide)

/-- C3, counterexample: a row key absent from the header list is not
silently dropped; the call raises (first component true) and the file is
left unchanged, with no data row written. -/
theorem c3_counterexample :
    write_csv_row (some "date,git_sha\r\nd,g\r\n") [("extra", "1")]
      ["date", "git_sha"] = (true, "date,git_sha\r\nd,g\r\n") := rfl

/-- C3, amended: a key present in the row but absent from the header list
makes the underlying writer raise (its default extra-key discipline), the
call fails and no data row is written; a header key absent from the row
yields an empty field at that header position. -/
theorem c3_amended (fs : Option String) (row : List (String × String))
    (headers : List String) :
    (row.all (fun p => headers.contains p.1) = false →
      write_csv_row fs row headers =
        (true, match fs with | some c => c | none => csvLine headers)) ∧
    (row.all (fun p => headers.contains p.1) = true →
      (write_csv_row fs row headers).1 = false) ∧
    (∀ (i : ℕ) (hd : String), headers[i]? = some hd →
      dictLookup hd row = none → (rowFields row headers)[i]? = some "") := by
  refine ⟨?_, ?_, ?_⟩
  · intro hall
    unfold write_csv_row
    rw [hall]
    rfl
  · intro hall
    unfold write_csv_row
    rw [hall]
    rfl
  · intro i hd hi hlk
    unfold rowFields
    rw [List.getElem?_map, hi]
    simp [hlk]

/-- C3, witness for the amended claim: a concrete failing call with an
extra row key, and a concrete empty field for a header key missing from
the row. -/
theorem c3_amended_witness :
    write_csv_row (some "x\r\n") [("b", "1")] ["a"] = (true, "x\r\n") ∧
    (rowFields [("b", "1")] ["a"])[0]? = some "" := by
  constructor
  · exact (c3_amended (some "x\r\n") [("b", "1")] ["a"]).1 (by decide)
  · exact (c3_amended (some "x\r\n") [("b", "1")] ["a"]).2.2 0 "a"
      (by decide) (by decide)

/-- C4: get_git_sha returns the sentinel unknown whenever the revision
command raised (it returns a plain string in all cases, so nothing
propagates past its boundary), and on success it returns the command
output with surrounding whitespace removed: the output splits as
whitespace, result, whitespace, and the result neither starts nor ends
with a whitespace character. -/
theorem c4_get_git_sha :
    get_git_sha none = "unknown" ∧
    ∀ s : String, ∃ pre post : List Char,
      pre.all isPySpace = true ∧ post.all isPySpace = true ∧
      s.toList = pre ++ (get_git_sha (some s)).toList ++ post ∧
      (∀ c, (get_git_sha (some s)).toList.head? = some c → isPySpace c = false) ∧
      (∀ c, (get_git_sha (some s)).toList.getLast? = some c → isPySpace c = false) := by
  constructor
  · rfl
  · intro s
    obtain ⟨pre, post, h1, h2, h3⟩ := pyStrip_decomp s.toList
    refine ⟨pre, post, h1, h2, h3, ?_, ?_⟩
    · intro c hc
      exact pyStrip_head s.toList c hc
    · intro c hc
      exact pyStrip_last s.toList c hc

/-- C4, witness: the sentinel on failure and the split at a concrete
command output with a trailing newline. -/
theorem c4_witness :
    get_git_sha none = "unknown" ∧
    ∃ pre post : List Char, pre.all isPySpace = true ∧
      post.all isPySpace = true ∧
      "abc123\n".toList = pre ++ (get_git_sha (some "abc123\n")).toList ++ post := by
  refine ⟨c4_get_git_sha.1, ?_⟩
  obtain ⟨pre, post, h1, h2, h3, _, _⟩ := c4_get_git_sha.2 "abc123\n"
  exact ⟨pre, post, h1, h2, h3⟩

/-- C5, counterexample: on a non-existent path with a row key outside the
header list, the call writes the header and then raises, so the created
file holds the header row and no data row at all, against the claimed
header-plus-exactly-one-data-row shape. -/
theorem c5_counterexample :
    write_csv_row none [("stray", "9")] ["col"] = (true, "col\r\n") := rfl

/-- C5, amended: provided every key of the row appears in the header list,
writing to a non-existent path creates the file with a header row equal to
the provided header list followed by exactly one data row, and writing to
an existing path appends exactly one data row, does not duplicate the
header, and leaves the prior contents unchanged as a prefix. -/
theorem c5_amended (row : List (String × String)) (headers : List String)
    (hall : row.all (fun p => headers.contains p.1) = true) :
    write_csv_row none row headers
      = (false, csvLine headers ++ csvLine (rowFields row headers)) ∧
    ∀ c : String, write_csv_row (some c) row headers
      = (false, c ++ csvLine (rowFields row headers)) := by
  constructor
  · unfold write_csv_row
    rw [hall]
    rfl
  · intro c
    unfold write_csv_row
    rw [hall]
    rfl

/-- C5, witness for the amended claim at a concrete row and header list,
on both a missing file and an existing one. -/
theorem c5_amended_witness :
    write_csv_row none [("date", "d")] ["date"] = (false, "date\r\nd\r\n") ∧
    write_csv_row (some "h\r\n") [("date", "d")] ["date"]
      = (false, "h\r\nd\r\n") := by
  have h := c5_amended [("date", "d")] ["date"] (by decide)
  constructor
  · rw [h.1]; decide
  · rw [h.2 "h\r\n"]; decide

/-- C6: whenever parse_results succeeds, the assembled report row contains
the keys date and git_sha, and the header list handed to the writer is
date, git_sha followed by the measurement keys in first-seen order of
their appearance in the captured text. -/
theorem c6_headers (output now git : String) (results : List (String × ℚ))
    (h : parse_results output = some results) :
    (dictLookup "date" (mainRow results now git)).isSome = true ∧
    (dictLookup "git_sha" (mainRow results now git)).isSome = true ∧
    mainHeaders results
      = ["date", "git_sha"] ++ firstSeen ((finditer output.toList).map matchKey) := by
  refine ⟨?_, ?_, ?_⟩
  · unfold mainRow
    apply pyUpdate_lookup_isSome
    rfl
  · unfold mainRow
    apply pyUpdate_lookup_isSome
    rfl
  · unfold mainHeaders
    congr 1
    unfold parse_results at h
    exact parseMatches_keys (finditer output.toList) [] results h

/-- C6, witness at a concrete captured text with one measurement. -/
theorem c6_witness :
    (dictLookup "date" (mainRow [("TendrilTreeTests.testInsert",
        decimalVal ['0','.','0','0','3'])] "NOW" "SHA")).isSome = true ∧
    mainHeaders [("TendrilTreeTests.testInsert", decimalVal ['0','.','0','0','3'])]
      = ["date", "git_sha", "TendrilTreeTests.testInsert"] := by
  have h := c6_headers okLineA "NOW" "SHA"
    [("TendrilTreeTests.testInsert", decimalVal ['0','.','0','0','3'])] parse_okLineA
  refine ⟨h.1, ?_⟩
  rw [h.2.2]
  decide

/-- C7: when running the tests raises, or extracting results raises, the
orchestration catches nothing, reports the failure, and the CSV file state
is exactly the state it had before the run. -/
theorem c7_no_write_on_failure (now : String) (gitOut : Option String)
    (file : Option String) (testOut : Option String)
    (h : testOut = none ∨ ∃ t, testOut = some t ∧ parse_results t = none) :
    pyMain testOut now gitOut file = (true, file) := by
  rcases h with h | ⟨t, ht, hp⟩
  · rw [h]; rfl
  · rw [ht]
    simp [pyMain, hp]

/-- C7, witness: a concrete launch failure and a concrete extraction
failure, each leaving a pre-existing file untouched. -/
theorem c7_witness :
    pyMain none "T" none (some "prev") = (true, some "prev") ∧
    pyMain (some badNumLine) "T" none (some "prev") = (true, some "prev") := by
  constructor
  · exact c7_no_write_on_failure "T" none (some "prev") none (Or.inl rfl)
  · exact c7_no_write_on_failure "T" none (some "prev") (some badNumLine)
      (Or.inr ⟨badNumLine, rfl, rfl⟩)

/-- C8: when parse_results succeeds, each key maps to the parsed value of
the last pattern match in text order that carries that key: a later match
overwrites any prior value for the same key. -/
theorem c8_last_match_wins (output : String) (d : List (String × ℚ))
    (k : String) (a : List Char) (hp : parse_results output = some d)
    (hl : lastCapture k (finditer output.toList) = some a) :
    dictLookup k d = pyFloat a :=
  parseMatches_lookup_last k (finditer output.toList) [] d a hp hl

/-- C8, witness: two lines with the same key, averages 0.003 then 0.007;
the mapping holds the value captured by the later line. -/
theorem c8_witness :
    dictLookup "TendrilTreeTests.testInsert"
      [("TendrilTreeTests.testInsert", decimalVal ['0','.','0','0','7'])]
      = pyFloat ['0','.','0','0','7'] :=
  c8_last_match_wins twoLines
    [("TendrilTreeTests.testInsert", decimalVal ['0','.','0','0','7'])]
    "TendrilTreeTests.testInsert" ['0','.','0','0','7'] parse_twoLines (by decide)

/-- C9: an input with zero pattern matches yields the empty mapping, and
no error (parse_results returns rather than raising). -/
theorem c9_no_matches (output : String)
    (h : finditer output.toList = []) : parse_results output = some [] := by
  unfold parse_results
  rw [h]
  rfl

/-- C9, witness at a concrete matchless input. -/
theorem c9_witness : parse_results "hello world, no measurements" = some [] :=
  c9_no_matches "hello world, no measurements" (by decide)

/-- C10: every key of a successful parse_results mapping is two nonempty
word-character groups joined by a period, hence never equal to date or
git_sha, and merging the measurements into the report row leaves the
timestamp and revision values intact. -/
theorem c10_keys_disjoint (output : String) (d : List (String × ℚ))
    (hp : parse_results output = some d) :
    (∀ k ∈ d.map Prod.fst,
      (∃ w1 w2 : List Char, w1 ≠ [] ∧ w2 ≠ [] ∧
        w1.all isPyWordChar = true ∧ w2.all isPyWordChar = true ∧
        k = String.mk (w1 ++ '.' :: w2)) ∧
      k ≠ "date" ∧ k ≠ "git_sha") ∧
    ∀ now git : String,
      dictLookup "date" (mainRow d now git) = some (PyVal.str now) ∧
      dictLookup "git_sha" (mainRow d now git) = some (PyVal.str git) := by
  have hkeys : ∀ k ∈ d.map Prod.fst, ∃ m ∈ finditer output.toList, k = matchKey m := by
    intro k hk
    unfold parse_results at hp
    have he := parseMatches_keys (finditer output.toList) [] d hp
    rw [he] at hk
    rcases foldl_firstSeen_mem _ _ k hk with h0 | h0
    · simp at h0
    · obtain ⟨m, hm, hmk⟩ := List.mem_map.mp h0
      exact ⟨m, hm, hmk.symm⟩
  have hshape : ∀ k ∈ d.map Prod.fst,
      ∃ w1 w2 : List Char, w1 ≠ [] ∧ w2 ≠ [] ∧
        w1.all isPyWordChar = true ∧ w2.all isPyWordChar = true ∧
        k = String.mk (w1 ++ '.' :: w2) := by
    intro k hk
    obtain ⟨m, hm, hmk⟩ := hkeys k hk
    obtain ⟨h1, h2, h3, h4, _, _⟩ := finditer_shape output.toList m hm
    exact ⟨m.classname, m.testname, h1, h3, h2, h4, hmk⟩
  have hnotdate : ∀ k ∈ d.map Prod.fst, k ≠ "date" ∧ k ≠ "git_sha" := by
    intro k hk
    obtain ⟨w1, w2, _, _, _, _, hke⟩ := hshape k hk
    have hdot : ('.' : Char) ∈ k.toList := by
      rw [hke]
      show ('.' : Char) ∈ w1 ++ '.' :: w2
      exact List.mem_append_right w1 (List.mem_cons_self '.' w2)
    constructor
    · intro he
      rw [he] at hdot
      exact absurd hdot (by decide)
    · intro he
      rw [he] at hdot
      exact absurd hdot (by decide)
  refine ⟨fun k hk => ⟨hshape k hk, hnotdate k hk⟩, ?_⟩
  intro now git
  have hupd : ∀ key : String, key ≠ "date" → key ≠ "git_sha" →
      dictLookup key (mainRow d now git) = dictLookup key
        ([("date", PyVal.str now), ("git_sha", PyVal.str git)]) → True := fun _ _ _ _ => trivial
  have hne : ∀ key : String, (key = "date" ∨ key = "git_sha") →
      ∀ p ∈ d.map (fun p => (p.1, PyVal.num p.2)), p.1 ≠ key := by
    intro key hkey p hp
    obtain ⟨q, hq, hqe⟩ := List.mem_map.mp hp
    have hq1 : q.1 ∈ d.map Prod.fst := List.mem_map.mpr ⟨q, hq, rfl⟩
    have := hnotdate q.1 hq1
    rcases hkey with hkey | hkey
    · rw [← hqe, hkey]; exact this.1
    · rw [← hqe, hkey]; exact this.2
  constructor
  · unfold mainRow
    rw [pyUpdate_lookup_not_mem "date" _ _ (hne "date" (Or.inl rfl))]
    rfl
  · unfold mainRow
    rw [pyUpdate_lookup_not_mem "git_sha" _ _ (hne "git_sha" (Or.inr rfl))]
    rfl

/-- C10, witness: the concrete key from scenario A differs from date, and
the timestamp survives the merge. -/
theorem c10_witness :
    ("TendrilTreeTests.testInsert" : String) ≠ "date" ∧
    dictLookup "date" (mainRow [("TendrilTreeTests.testInsert",
        decimalVal ['0','.','0','0','3'])] "NOW" "SHA")
      = some (PyVal.str "NOW") := by
  have h := c10_keys_disjoint okLineA
    [("TendrilTreeTests.testInsert", decimalVal ['0','.','0','0','3'])] parse_okLineA
  exact ⟨(h.1 "TendrilTreeTests.testInsert" (by decide)).2.1, (h.2 "NOW" "SHA").1⟩
